import Mathlib

/-!
Verification development for the riffkey key-routing library.

The Go source (`riffkey.go`) is shallowly embedded below:

* `Key`, the key model (`Key` struct: `Rune`, `Mod`, `Special`).  A Go
  `rune` is modelled as a Lean `Char` (a Unicode scalar value); the zero
  rune is `Char.ofNat 0`.  Modifier bitsets and the `Special` enumeration
  are modelled as `Nat` (the Go constants are `uint8` values).
* `TrieNode` / `matchFn`, the trie router (`trieNode`, `Router.match`).
  Go's `map[Key]*trieNode` is modelled as an association list; only
  lookup, insertion-or-overwrite and emptiness are ever used, so the
  association-list operations below are observationally the map
  operations.  Handlers are opaque callbacks in Go and are modelled as
  `Nat` identifiers.
* `ParsePattern` / `parseVimKey`, the pattern compiler.  Go strings are
  modelled as `List Char` (the Go code converts the pattern to `[]rune`
  before scanning).  `strings.ToLower` is modelled on ASCII letters; every
  string it is compared against in the source (modifier letters and the
  `vimToSpecial` keys) is ASCII, so this agrees with Go on all inputs the
  development evaluates.
* `InputState` / `dispatch`, the dispatch state machine (`Input.Dispatch`).
  Handler invocation is modelled by an event list returned from
  `dispatch`: events returned by a `dispatch` call are exactly the handler
  invocations that happen synchronously inside that `Dispatch` call.  The
  disambiguation timer of the Go code only fires asynchronously, so it
  contributes no synchronous events; the `pending`/`pendingKeys` fields it
  is armed with are part of the state.
* `parseSingleByte`, `parseCSI`, `parseTildeSequence`, `parseSS3`,
  `parseModifier`, `parseBytes`, the terminal decoder (`Reader`).
  `readKeyFromBytes` models `Reader.ReadKey` on a byte stream in which
  every listed byte is immediately available and exhaustion of the list
  stands for "no further byte arrives within the escape timeout".
-/

namespace Riffkey

/-- The `Key` struct: `Rune rune; Mod Modifier; Special Special`. -/
structure Key where
  rune : Char
  mod : Nat
  special : Nat
deriving DecidableEq, Repr

/-- The zero rune (`Rune: 0` in Go). -/
def noRune : Char := Char.ofNat 0

/-- `ModCtrl = 2` (Go: `1 << 1`). -/
def modCtrl : Nat := 2
/-- `ModAlt = 4`. -/
def modAlt : Nat := 4
/-- `ModShift = 8`. -/
def modShift : Nat := 8

/-- The `Special` enumeration, as the `uint8` values of the Go `iota` block:
`SpecialNone = 0`, `SpecialEscape = 1`, ..., `SpecialF12 = 27`. -/
def specialNone : Nat := 0
def specialEscape : Nat := 1
def specialEnter : Nat := 2
def specialTab : Nat := 3
def specialSpace : Nat := 4
def specialBackspace : Nat := 5
def specialUp : Nat := 6
def specialDown : Nat := 7
def specialLeft : Nat := 8
def specialRight : Nat := 9
def specialHome : Nat := 10
def specialEnd : Nat := 11
def specialPageUp : Nat := 12
def specialPageDown : Nat := 13
def specialInsert : Nat := 14
def specialDelete : Nat := 15
def specialF1 : Nat := 16
def specialF12 : Nat := 27

/-- The trie of the router: `trieNode { children map[Key]*trieNode; handler Handler }`. -/
inductive TrieNode where
  | node (children : List (Key × TrieNode)) (handler : Option Nat)

def TrieNode.children : TrieNode → List (Key × TrieNode)
  | .node cs _ => cs

def TrieNode.handler : TrieNode → Option Nat
  | .node _ h => h

@[simp] theorem TrieNode.children_node (cs : List (Key × TrieNode)) (h : Option Nat) :
    (TrieNode.node cs h).children = cs := rfl

@[simp] theorem TrieNode.handler_node (cs : List (Key × TrieNode)) (h : Option Nat) :
    (TrieNode.node cs h).handler = h := rfl

/-- Go map lookup `node.children[k]`. -/
def lookupChild : List (Key × TrieNode) → Key → Option TrieNode
  | [], _ => none
  | (k', t) :: rest, k => if k' = k then some t else lookupChild rest k

/-- The loop of `Router.match`, with the `lastHandler`/`lastConsumed`
accumulators and the running index `i` made explicit.  On a missing child the
walk stops (the Go code returns `(lastHandler, lastConsumed, false)` when a
handler was recorded and `(nil, 0, false)` otherwise); when the keys are
exhausted it returns the accumulators together with
`partial = len(node.children) > 0`. -/
def matchLoop : TrieNode → List Key → Nat → Option Nat → Nat → Option Nat × Nat × Bool
  | nd, [], _, lastH, lastC => (lastH, lastC, decide (nd.children.length > 0))
  | nd, k :: rest, i, lastH, lastC =>
    match lookupChild nd.children k with
    | none =>
      match lastH with
      | some h => (some h, lastC, false)
      | none => (none, 0, false)
    | some child =>
      match child.handler with
      | some h => matchLoop child rest (i + 1) (some h) (i + 1)
      | none => matchLoop child rest (i + 1) lastH lastC

/-- `Router.match`: walk the trie along `keys` from the root, recording the
deepest handler seen. -/
def matchFn (root : TrieNode) (keys : List Key) : Option Nat × Nat × Bool :=
  matchLoop root keys 0 none 0

/-- Iterated child lookup: the node reached from `t` by consuming all of `ks`,
if every step finds a child. -/
def walkTrie : TrieNode → List Key → Option TrieNode
  | t, [] => some t
  | t, k :: rest =>
    match lookupChild t.children k with
    | none => none
    | some child => walkTrie child rest

/-- The nodes visited by a (maximal) successful walk of `ks` from `t`, one per
consumed key, excluding the start node. -/
def walkedNodes : TrieNode → List Key → List TrieNode
  | _, [] => []
  | t, k :: rest =>
    match lookupChild t.children k with
    | none => []
    | some child => child :: walkedNodes child rest

/-- The deepest handler-bearing node in a visited-node list, paired with the
number of keys consumed to reach it; `i` is the number of keys consumed before
the first listed node. -/
def deepestHandler : List TrieNode → Nat → Option (Nat × Nat)
  | [], _ => none
  | nd :: rest, i =>
    match deepestHandler rest (i + 1) with
    | some r => some r
    | none =>
      match nd.handler with
      | some h => some (h, i + 1)
      | none => none

/-- The final node of a walk: the last visited node, or the start node when no
key was consumed. -/
def finalNode (t : TrieNode) (ws : List TrieNode) : TrieNode :=
  ws.getLastD t

/-- `matchSpec` restates the specification's description of `Match` word for
word: the result is the handler of the deepest handler-bearing node on the
successfully walked path with the number of keys consumed to reach it (or no
handler with consumed 0); `hasLongerPrefix` is true iff the walk consumed the
entire buffer and the final node has at least one child. -/
def matchSpec (t : TrieNode) (ks : List Key) : Option Nat × Nat × Bool :=
  let ws := walkedNodes t ks
  let hlp := decide (ws.length = ks.length) && !(finalNode t ws).children.isEmpty
  match deepestHandler ws 0 with
  | some (h, c) => (some h, c, hlp)
  | none => (none, 0, hlp)

/-! ### Pattern compiler (`ParsePattern`, `parseVimKey`) -/

/-- The `specialToVim` map, as a function with the Go zero value (`""`) for
missing entries. -/
def specialToVim (sp : Nat) : List Char :=
  if sp = 1 then ['E', 's', 'c']
  else if sp = 2 then ['C', 'R']
  else if sp = 3 then ['T', 'a', 'b']
  else if sp = 4 then ['S', 'p', 'a', 'c', 'e']
  else if sp = 5 then ['B', 'S']
  else if sp = 6 then ['U', 'p']
  else if sp = 7 then ['D', 'o', 'w', 'n']
  else if sp = 8 then ['L', 'e', 'f', 't']
  else if sp = 9 then ['R', 'i', 'g', 'h', 't']
  else if sp = 10 then ['H', 'o', 'm', 'e']
  else if sp = 11 then ['E', 'n', 'd']
  else if sp = 12 then ['P', 'a', 'g', 'e', 'U', 'p']
  else if sp = 13 then ['P', 'a', 'g', 'e', 'D', 'o', 'w', 'n']
  else if sp = 14 then ['I', 'n', 's', 'e', 'r', 't']
  else if sp = 15 then ['D', 'e', 'l']
  else if sp = 16 then ['F', '1']
  else if sp = 17 then ['F', '2']
  else if sp = 18 then ['F', '3']
  else if sp = 19 then ['F', '4']
  else if sp = 20 then ['F', '5']
  else if sp = 21 then ['F', '6']
  else if sp = 22 then ['F', '7']
  else if sp = 23 then ['F', '8']
  else if sp = 24 then ['F', '9']
  else if sp = 25 then ['F', '1', '0']
  else if sp = 26 then ['F', '1', '1']
  else if sp = 27 then ['F', '1', '2']
  else []

/-- The `vimToSpecial` map (keys are already lowercase in the source). -/
def vimToSpecial (s : List Char) : Option Nat :=
  if s = ['e', 's', 'c'] then some 1
  else if s = ['e', 's', 'c', 'a', 'p', 'e'] then some 1
  else if s = ['c', 'r'] then some 2
  else if s = ['e', 'n', 't', 'e', 'r'] then some 2
  else if s = ['r', 'e', 't', 'u', 'r', 'n'] then some 2
  else if s = ['t', 'a', 'b'] then some 3
  else if s = ['s', 'p', 'a', 'c', 'e'] then some 4
  else if s = ['b', 's'] then some 5
  else if s = ['b', 'a', 'c', 'k', 's', 'p', 'a', 'c', 'e'] then some 5
  else if s = ['u', 'p'] then some 6
  else if s = ['d', 'o', 'w', 'n'] then some 7
  else if s = ['l', 'e', 'f', 't'] then some 8
  else if s = ['r', 'i', 'g', 'h', 't'] then some 9
  else if s = ['h', 'o', 'm', 'e'] then some 10
  else if s = ['e', 'n', 'd'] then some 11
  else if s = ['p', 'a', 'g', 'e', 'u', 'p'] then some 12
  else if s = ['p', 'a', 'g', 'e', 'd', 'o', 'w', 'n'] then some 13
  else if s = ['i', 'n', 's', 'e', 'r', 't'] then some 14
  else if s = ['d', 'e', 'l'] then some 15
  else if s = ['d', 'e', 'l', 'e', 't', 'e'] then some 15
  else if s = ['f', '1'] then some 16
  else if s = ['f', '2'] then some 17
  else if s = ['f', '3'] then some 18
  else if s = ['f', '4'] then some 19
  else if s = ['f', '5'] then some 20
  else if s = ['f', '6'] then some 21
  else if s = ['f', '7'] then some 22
  else if s = ['f', '8'] then some 23
  else if s = ['f', '9'] then some 24
  else if s = ['f', '1', '0'] then some 25
  else if s = ['f', '1', '1'] then some 26
  else if s = ['f', '1', '2'] then some 27
  else none

/-- `strings.ToLower`, on ASCII letters.  Every string the source compares a
lowered string against is ASCII, so this agrees with Go wherever it is used. -/
def asciiLower (s : List Char) : List Char :=
  s.map fun c => if 'A' ≤ c ∧ c ≤ 'Z' then Char.ofNat (c.toNat + 32) else c

/-- `strings.Split(s, "-")`: split on `'-'`, keeping empty fields; never
returns an empty list. -/
def splitDash : List Char → List (List Char)
  | [] => [[]]
  | c :: rest =>
    if c = '-' then [] :: splitDash rest
    else
      match splitDash rest with
      | p :: ps => (c :: p) :: ps
      | [] => [[c]]

/-- The UTF-8 byte length of one character (`len` counts bytes in Go). -/
def charUtf8Size (c : Char) : Nat :=
  if c.toNat < 0x80 then 1
  else if c.toNat < 0x800 then 2
  else if c.toNat < 0x10000 then 3
  else 4

/-- `len(part)` in Go: the UTF-8 byte length of the string. -/
def utf8Len (s : List Char) : Nat := (s.map charUtf8Size).sum

/-- `rune(part[0])`: the first byte of the UTF-8 encoding of the string, read
back as a rune.  For an ASCII first character that byte is the character
itself; for a multi-byte first character it is the UTF-8 lead byte. -/
def runeOfFirstByte : List Char → Char
  | [] => noRune
  | c :: _ =>
    if c.toNat < 0x80 then c
    else if c.toNat < 0x800 then Char.ofNat (0xC0 + c.toNat / 0x40)
    else if c.toNat < 0x10000 then Char.ofNat (0xE0 + c.toNat / 0x1000)
    else Char.ofNat (0xF0 + c.toNat / 0x40000)

/-- The loop of `parseVimKey` over the hyphen-separated parts.  A part is in
modifier position iff it is not the last part (`i < len(parts)-1`), i.e. iff
the remaining list is nonempty. -/
def parseVimKeyLoop : List (List Char) → Key → Key
  | [], k => k
  | p :: rest, k =>
    let lower := asciiLower p
    if rest ≠ [] ∧ lower = ['c'] then
      parseVimKeyLoop rest { k with mod := k.mod ||| modCtrl }
    else if rest ≠ [] ∧ (lower = ['a'] ∨ lower = ['m']) then
      parseVimKeyLoop rest { k with mod := k.mod ||| modAlt }
    else if rest ≠ [] ∧ lower = ['s'] then
      parseVimKeyLoop rest { k with mod := k.mod ||| modShift }
    else
      let k' :=
        match vimToSpecial lower with
        | some sp => { k with special := sp }
        | none =>
          if utf8Len p = 1 then { k with rune := runeOfFirstByte p }
          else if p.length > 0 then { k with rune := runeOfFirstByte p }
          else k
      parseVimKeyLoop rest k'

/-- `parseVimKey`: parse the content inside `<...>`. -/
def parseVimKey (s : List Char) : Key :=
  parseVimKeyLoop (splitDash s) ⟨noRune, 0, 0⟩

/-- Scan for the first `'>'`: `some (inner, after)` splits the list at the
first `'>'` (excluded); `none` when there is no `'>'`. -/
def splitAtGt : List Char → Option (List Char × List Char)
  | [] => none
  | c :: rest =>
    if c = '>' then some ([], rest)
    else
      match splitAtGt rest with
      | some (inn, aft) => some (c :: inn, aft)
      | none => none

/-- The scanning loop of `ParsePattern`: a bare character is a literal key;
`<...>` is a chord parsed by `parseVimKey`; a `'<'` with no closing `'>'` is a
literal key.  The recursion is made structural by a fuel argument; the scan
consumes at least one character per step, so starting the fuel at the string
length (as `ParsePattern` does) the fuel never runs out and the unreachable
zero-fuel case never fires. -/
def parsePatternGo : Nat → List Char → List Key
  | _, [] => []
  | 0, _ :: _ => []
  | fuel + 1, c :: rest =>
    if c = '<' then
      match splitAtGt rest with
      | some (inn, aft) => parseVimKey inn :: parsePatternGo fuel aft
      | none => Key.mk c 0 0 :: parsePatternGo fuel rest
    else Key.mk c 0 0 :: parsePatternGo fuel rest

/-- `ParsePattern`: parse a vim-style pattern string into a key sequence. -/
def ParsePattern (s : List Char) : List Key := parsePatternGo s.length s

/-! ### The textual renderer `Key.String` -/

/-- `strings.Join(parts, "-")`. -/
def joinDash : List (List Char) → List Char
  | [] => []
  | [p] => p
  | p :: rest => p ++ '-' :: joinDash rest

/-- `Key.String`: the vim-style textual form of a key. -/
def keyString (k : Key) : List Char :=
  if k.special = 0 ∧ k.mod = 0 ∧ k.rune ≠ noRune then [k.rune]
  else
    let parts : List (List Char) :=
      (if k.mod &&& modCtrl ≠ 0 then [['C']] else []) ++
      (if k.mod &&& modAlt ≠ 0 then [['A']] else []) ++
      (if k.mod &&& modShift ≠ 0 then [['S']] else [])
    let keyPart : List Char :=
      if k.special ≠ 0 then specialToVim k.special
      else if k.rune ≠ noRune then [k.rune]
      else []
    if parts.length > 0 ∨ k.special ≠ 0 then
      '<' :: joinDash (parts ++ [keyPart]) ++ ['>']
    else keyPart

/-! ### Router registration (`registerPattern`, `removePattern`) -/

/-- Go map assignment `node.children[k] = child` for a key known to be present
(used after a successful lookup); appends when absent. -/
def replaceChild : List (Key × TrieNode) → Key → TrieNode → List (Key × TrieNode)
  | [], k, t => [(k, t)]
  | (k', t') :: rest, k, t =>
    if k' = k then (k, t) :: rest else (k', t') :: replaceChild rest k t

/-- The trie-insertion loop of `registerPattern`: walk/create the path of
`ks` and set the handler at its end (overwriting any previous handler). -/
def insertKeys : TrieNode → List Key → Nat → TrieNode
  | .node cs _, [], h => .node cs (some h)
  | .node cs hd, k :: rest, h =>
    match lookupChild cs k with
    | some child => .node (replaceChild cs k (insertKeys child rest h)) hd
    | none => .node (cs ++ [(k, insertKeys (.node [] none) rest h)]) hd

/-- The walk of `removePattern`: clear the handler at the node reached by
`ks`; if some key has no child, leave the trie unchanged.  Child nodes are
never pruned. -/
def removeKeys : TrieNode → List Key → TrieNode
  | .node cs _, [] => .node cs none
  | .node cs hd, k :: rest =>
    match lookupChild cs k with
    | none => .node cs hd
    | some child => .node (replaceChild cs k (removeKeys child rest)) hd

/-- `generatesEscapeSequence`: the explicit switch lists `SpecialUp` through
`SpecialF12`, which are the contiguous enumeration values 6–27; `Alt`-modified
keys also generate escape sequences. -/
def generatesEscapeSequence (k : Key) : Bool :=
  if 6 ≤ k.special ∧ k.special ≤ 27 then true
  else if k.mod &&& modAlt ≠ 0 then true
  else false

/-- A `Router`, restricted to the fields the verified operations touch.  The
modelled routers have no aliases set, so `expandAliases` is the identity (the
source returns the pattern unchanged when `r.aliases == nil`). -/
structure RouterS where
  root : TrieNode
  hasEscapeSequences : Bool

/-- `registerPattern`: compile, ignore an empty compilation, record the
escape-sequence requirement, insert into the trie. -/
def registerPattern (r : RouterS) (pattern : List Char) (h : Nat) : RouterS :=
  let keys := ParsePattern pattern
  if keys = [] then r
  else
    { root := insertKeys r.root keys h,
      hasEscapeSequences := r.hasEscapeSequences || keys.any generatesEscapeSequence }

/-- `removePattern`: compile, ignore an empty compilation, clear the handler
at the compiled node (children retained, flag untouched). -/
def removePattern (r : RouterS) (pattern : List Char) : RouterS :=
  let keys := ParsePattern pattern
  if keys = [] then r
  else { r with root := removeKeys r.root keys }

/-- `NewRouter()`: empty trie, flag false. -/
def newRouter : RouterS := ⟨.node [] none, false⟩

/-- A registration-history operation: `Handle` (register) or a removal (the
removal half of `Rebind`, which is remove-then-reregister in the source). -/
inductive ROp where
  | reg (pattern : List Char) (h : Nat)
  | rem (pattern : List Char)

def applyOp (r : RouterS) : ROp → RouterS
  | .reg p h => registerPattern r p h
  | .rem p => removePattern r p

def applyOps (r : RouterS) (ops : List ROp) : RouterS := ops.foldl applyOp r

/-- The currently registered patterns (by compiled key sequence) after a
history of registrations and removals: a register adds the compiled sequence,
a removal deletes it. -/
def updateRegSet (s : List (List Key)) : ROp → List (List Key)
  | .reg p _ =>
    let ks := ParsePattern p
    if ks = [] then s else if ks ∈ s then s else ks :: s
  | .rem p =>
    let ks := ParsePattern p
    if ks = [] then s else s.filter fun x => decide (x ≠ ks)

def regSetOf (ops : List ROp) : List (List Key) := ops.foldl updateRegSet []

/-! ### Dispatch state machine (`Input`) -/

/-- A synchronous handler invocation: `handler(Match{Keys: keys, Count: count})`. -/
structure Ev where
  handler : Nat
  keys : List Key
  count : Nat
deriving DecidableEq, Repr

/-- The mutable state of an `Input`: the router stack (top is the last
element, as in the Go slice), the key buffer, the count accumulator, and the
pending handler snapshot the disambiguation timer would fire. -/
structure InputState where
  stack : List RouterS
  buffer : List Key
  countBuffer : List Char
  pending : Option Nat
  pendingKeys : List Key

/-- `strconv.Atoi` on a 64-bit platform: optional sign, at least one digit,
nothing else, result within the `int64` range (out-of-range input is an
error, modelled as `none`). -/
def goAtoi (s : List Nat) : Option Int :=
  let neg : Bool := decide (s.head? = some 45)
  let ds := if s.head? = some 45 ∨ s.head? = some 43 then s.tail else s
  if ds ≠ [] ∧ ds.all (fun c => decide (48 ≤ c ∧ c ≤ 57)) = true then
    let n : Nat := ds.foldl (fun a c => a * 10 + (c - 48)) 0
    if neg = true then (if n ≤ 2 ^ 63 then some (-(n : Int)) else none)
    else if n < 2 ^ 63 then some (n : Int) else none
  else none

/-- `Input.parseCount`: the count accumulator parsed with `Atoi`, defaulting
to 1 when empty, on parse error, or when below 1. -/
def parseCount (cb : List Char) : Nat :=
  if cb = [] then 1
  else
    match goAtoi (cb.map Char.toNat) with
    | none => 1
    | some n => if n < 1 then 1 else n.toNat

/-- `Input.isCountDigit`: modified or special keys are never count digits; the
first accumulated digit must be 1–9 (a leading 0 is a command), later digits
may be 0–9. -/
def isCountDigit (cb : List Char) (k : Key) : Bool :=
  if k.mod ≠ 0 ∨ k.special ≠ 0 then false
  else if cb.isEmpty then decide (49 ≤ k.rune.toNat ∧ k.rune.toNat ≤ 57)
  else decide (48 ≤ k.rune.toNat ∧ k.rune.toNat ≤ 57)

/-- `Input.Dispatch`.  Returns the new state, the handled flag, and the
handler invocations performed synchronously inside the call.  The timer stop
and the clearing of `pending`/`pendingKeys` before matching, the
abandon-on-broken-sequence branch, the immediate-fire branch, the
pending-arm branch (the timer itself only fires asynchronously, hence no
synchronous event), the buffering branch and the dead-end branch follow the
source line by line. -/
def dispatch (s : InputState) (key : Key) : InputState × Bool × List Ev :=
  match s.stack.getLast? with
  | none => (s, false, [])
  | some router =>
    if isCountDigit s.countBuffer key = true ∧ s.buffer = [] then
      ({ s with countBuffer := s.countBuffer ++ [key.rune] }, true, [])
    else
      let wasPending := s.pending.isSome
      let s1 : InputState := { s with pending := none, pendingKeys := [] }
      let buf := s1.buffer ++ [key]
      let res := matchFn router.root buf
      let handler := res.1
      let consumed := res.2.1
      let hasLonger := res.2.2
      if wasPending = true ∧ consumed < buf.length ∧ hasLonger = false then
        ({ s1 with buffer := [], countBuffer := [] }, false, [])
      else
        match handler with
        | some h =>
          if hasLonger = false then
            let matched := buf.take consumed
            let count := parseCount s1.countBuffer
            ({ s1 with buffer := buf.drop consumed, countBuffer := [] }, true,
              [⟨h, matched, count⟩])
          else
            ({ s1 with buffer := buf, pending := some h, pendingKeys := buf.take consumed },
              true, [])
        | none =>
          if hasLonger = true then ({ s1 with buffer := buf }, true, [])
          else ({ s1 with buffer := [], countBuffer := [] }, false, [])

/-- `NewInput`: a nil root gives an empty stack. -/
def newInput (root : Option RouterS) : InputState :=
  match root with
  | none => ⟨[], [], [], none, []⟩
  | some r => ⟨[r], [], [], none, []⟩

/-- Dispatch a list of keys in order, collecting each call's handled flag and
synchronous handler invocations. -/
def runKeys (s : InputState) (ks : List Key) : InputState × List (Bool × List Ev) :=
  match ks with
  | [] => (s, [])
  | k :: rest =>
    let r1 := dispatch s k
    let r2 := runKeys r1.1 rest
    (r2.1, (r1.2.1, r1.2.2) :: r2.2)

/-! ### Terminal decoder (`Reader`) -/

/-- A key with only its special field set. -/
def keyOfSpecial (sp : Nat) : Key := ⟨noRune, 0, sp⟩

/-- `Reader.parseSingleByte`. -/
def parseSingleByte (b : Nat) : Key :=
  if b = 27 then keyOfSpecial specialEscape
  else if b = 13 ∨ b = 10 then keyOfSpecial specialEnter
  else if b = 9 then keyOfSpecial specialTab
  else if b = 127 ∨ b = 8 then keyOfSpecial specialBackspace
  else if b = 0 then ⟨' ', modCtrl, 0⟩
  else if b < 27 then ⟨Char.ofNat (97 + b - 1), modCtrl, 0⟩
  else if b = 32 then keyOfSpecial specialSpace
  else ⟨Char.ofNat b, 0, 0⟩

/-- `Reader.parseModifier`: `n := int(b - '1')` is byte subtraction, then the
bits of `n` select Shift (1), Alt (2) and Ctrl (4), i.e. the terminal
convention `M = 1 + shift(1) + alt(2) + ctrl(4)` for `b` the digit of `M`. -/
def parseModifier (b : Nat) : Nat :=
  let n := (b + 256 - 49) % 256
  (if n &&& 1 ≠ 0 then modShift else 0) |||
  (if n &&& 2 ≠ 0 then modAlt else 0) |||
  (if n &&& 4 ≠ 0 then modCtrl else 0)

/-- `Reader.parseSS3` on the bytes after `ESC O`. -/
def parseSS3 (b : List Nat) : Key :=
  match b with
  | [] => keyOfSpecial specialEscape
  | c :: _ =>
    if c = 80 then keyOfSpecial specialF1
    else if c = 81 then keyOfSpecial 17
    else if c = 82 then keyOfSpecial 18
    else if c = 83 then keyOfSpecial 19
    else if c = 72 then keyOfSpecial specialHome
    else if c = 70 then keyOfSpecial specialEnd
    else if c = 65 then keyOfSpecial specialUp
    else if c = 66 then keyOfSpecial specialDown
    else if c = 67 then keyOfSpecial specialRight
    else if c = 68 then keyOfSpecial specialLeft
    else keyOfSpecial specialEscape

/-- `strings.Index(numStr, ";")`: split at the first `';'` (excluded). -/
def splitAtSemi : List Nat → Option (List Nat × List Nat)
  | [] => none
  | c :: rest =>
    if c = 59 then some ([], rest)
    else
      match splitAtSemi rest with
      | some (pre, post) => some (c :: pre, post)
      | none => none

/-- `Reader.parseTildeSequence` on the bytes before the final `'~'`. -/
def parseTildeSequence (b : List Nat) : Key :=
  if b = [] then keyOfSpecial specialEscape
  else
    let sm := splitAtSemi b
    let numPart := match sm with | some (pre, _) => pre | none => b
    let md : Nat :=
      match sm with
      | some (_, p :: _) => parseModifier p
      | some (_, []) => 0
      | none => 0
    match goAtoi numPart with
    | none => keyOfSpecial specialEscape
    | some num =>
      if num = 1 then ⟨noRune, md, specialHome⟩
      else if num = 2 then ⟨noRune, md, specialInsert⟩
      else if num = 3 then ⟨noRune, md, specialDelete⟩
      else if num = 4 then ⟨noRune, md, specialEnd⟩
      else if num = 5 then ⟨noRune, md, specialPageUp⟩
      else if num = 6 then ⟨noRune, md, specialPageDown⟩
      else if num = 7 then ⟨noRune, md, specialHome⟩
      else if num = 8 then ⟨noRune, md, specialEnd⟩
      else if 11 ≤ num ∧ num ≤ 15 then ⟨noRune, md, (16 + (num - 11)).toNat⟩
      else if 17 ≤ num ∧ num ≤ 21 then ⟨noRune, md, (21 + (num - 17)).toNat⟩
      else if 23 ≤ num ∧ num ≤ 24 then ⟨noRune, md, (26 + (num - 23)).toNat⟩
      else keyOfSpecial specialEscape

/-- `Reader.parseCSI` on the bytes after `ESC [`. -/
def parseCSI (b : List Nat) : Key :=
  match b with
  | [] => keyOfSpecial specialEscape
  | c0 :: _ =>
    if c0 = 65 then keyOfSpecial specialUp
    else if c0 = 66 then keyOfSpecial specialDown
    else if c0 = 67 then keyOfSpecial specialRight
    else if c0 = 68 then keyOfSpecial specialLeft
    else if c0 = 72 then keyOfSpecial specialHome
    else if c0 = 70 then keyOfSpecial specialEnd
    else if c0 = 90 then ⟨noRune, modShift, specialTab⟩
    else
      let modArrow : Option Key :=
        match b with
        | c0 :: c1 :: c2 :: c3 :: _ =>
          if c0 = 49 ∧ c1 = 59 then
            let md := parseModifier c2
            if c3 = 65 then some ⟨noRune, md, specialUp⟩
            else if c3 = 66 then some ⟨noRune, md, specialDown⟩
            else if c3 = 67 then some ⟨noRune, md, specialRight⟩
            else if c3 = 68 then some ⟨noRune, md, specialLeft⟩
            else if c3 = 72 then some ⟨noRune, md, specialHome⟩
            else if c3 = 70 then some ⟨noRune, md, specialEnd⟩
            else none
          else none
        | _ => none
      match modArrow with
      | some k => k
      | none =>
        if b.getLast? = some 126 then parseTildeSequence b.dropLast
        else keyOfSpecial specialEscape

/-- `Reader.parseEscapeSequence`. -/
def parseEscapeSequence (b : List Nat) : Key :=
  if b.length = 1 then keyOfSpecial specialEscape
  else if b.length = 2 ∧ 32 ≤ b.getD 1 0 ∧ b.getD 1 0 < 127 then
    ⟨Char.ofNat (b.getD 1 0), modAlt, 0⟩
  else if b.length ≥ 3 ∧ b.getD 1 0 = 91 then parseCSI (b.drop 2)
  else if b.length ≥ 3 ∧ b.getD 1 0 = 79 then parseSS3 (b.drop 2)
  else keyOfSpecial specialEscape

/-- `Reader.parseBytes`. -/
def parseBytes (b : List Nat) : Key :=
  match b with
  | [] => ⟨noRune, 0, 0⟩
  | [x] => parseSingleByte x
  | x :: _ => if x = 27 then parseEscapeSequence b else ⟨Char.ofNat x, 0, 0⟩

/-- The CSI byte scan of `ReadKey`: collect bytes (at most 11, the
`seqEnd < r.pos+12` bound) up to and including the first CSI terminator
(letter or `'~'`); returns the collected bytes and the unconsumed rest. -/
def csiScan : List Nat → Nat → List Nat × List Nat
  | [], _ => ([], [])
  | c :: rest, fuel =>
    if fuel = 0 then ([], c :: rest)
    else if (65 ≤ c ∧ c ≤ 90) ∨ (97 ≤ c ∧ c ≤ 122) ∨ c = 126 then ([c], rest)
    else
      let r := csiScan rest (fuel - 1)
      (c :: r.1, r.2)

/-- `Reader.ReadKey` (with `parseEscapeSequences` enabled) on a byte stream:
every listed byte is immediately available, and reaching the end of the list
stands for "no further byte arrives within the escape timeout".  Returns the
decoded key and the unconsumed bytes; `none` is the end-of-stream error on an
empty stream. -/
def readKeyFromBytes (input : List Nat) : Option (Key × List Nat) :=
  match input with
  | [] => none
  | b :: rest =>
    if b = 27 then
      match rest with
      | [] => some (keyOfSpecial specialEscape, [])
      | nb :: rest2 =>
        if nb = 79 then
          match rest2 with
          | c :: rest3 => some (parseBytes [27, 79, c], rest3)
          | [] => some (⟨Char.ofNat 79, modAlt, 0⟩, [])
        else if nb = 91 then
          let sc := csiScan rest2 11
          some (parseBytes (27 :: 91 :: sc.1), sc.2)
        else if 32 ≤ nb ∧ nb < 127 then some (⟨Char.ofNat nb, modAlt, 0⟩, rest2)
        else some (keyOfSpecial specialEscape, nb :: rest2)
    else some (parseSingleByte b, rest)

/-! ## Theorems

### C2: `Router.match` computes the deepest handler along the walked path -/

/-- Generalisation of `matchSpec` to a running walk: `i` keys are already
consumed and `(lastH, lastC)` is the best handler recorded so far. -/
def matchSpecAux (nd : TrieNode) (ks : List Key) (i : Nat) (lastH : Option Nat)
    (lastC : Nat) : Option Nat × Nat × Bool :=
  let ws := walkedNodes nd ks
  let hlp := decide (ws.length = ks.length) && !(finalNode nd ws).children.isEmpty
  match deepestHandler ws i with
  | some (h, c) => (some h, c, hlp)
  | none => (lastH, lastC, hlp)

theorem length_pos_eq_not_isEmpty (l : List (Key × TrieNode)) :
    decide (l.length > 0) = !l.isEmpty := by
  cases l <;> simp

theorem matchLoop_cons (nd : TrieNode) (k : Key) (rest : List Key) (i : Nat)
    (lastH : Option Nat) (lastC : Nat) :
    matchLoop nd (k :: rest) i lastH lastC =
      match lookupChild nd.children k with
      | none =>
        match lastH with
        | some h => (some h, lastC, false)
        | none => (none, 0, false)
      | some child =>
        match child.handler with
        | some h => matchLoop child rest (i + 1) (some h) (i + 1)
        | none => matchLoop child rest (i + 1) lastH lastC := rfl

theorem walkedNodes_cons (nd : TrieNode) (k : Key) (rest : List Key) :
    walkedNodes nd (k :: rest) =
      match lookupChild nd.children k with
      | none => []
      | some child => child :: walkedNodes child rest := rfl

theorem walkTrie_nil (t : TrieNode) : walkTrie t [] = some t := rfl

theorem walkTrie_cons (t : TrieNode) (k : Key) (rest : List Key) :
    walkTrie t (k :: rest) =
      match lookupChild t.children k with
      | none => none
      | some child => walkTrie child rest := rfl

theorem finalNode_cons (nd child : TrieNode) (ws : List TrieNode) :
    finalNode nd (child :: ws) = finalNode child ws := by
  simp only [finalNode, List.getLastD_cons]

theorem matchLoop_eq_spec (ks : List Key) :
    ∀ (nd : TrieNode) (i : Nat) (lastH : Option Nat) (lastC : Nat),
    (lastH = none → lastC = 0) →
    matchLoop nd ks i lastH lastC = matchSpecAux nd ks i lastH lastC := by
  induction ks with
  | nil =>
    intro nd i lastH lastC hinv
    simp [matchLoop, matchSpecAux, walkedNodes, deepestHandler, finalNode,
      length_pos_eq_not_isEmpty]
  | cons k rest ih =>
    intro nd i lastH lastC hinv
    rw [matchLoop_cons]
    cases hlc : lookupChild nd.children k with
    | none =>
      simp only [matchSpecAux, walkedNodes_cons, hlc, deepestHandler, finalNode,
        List.length_nil, List.length_cons]
      cases lastH with
      | none => simp [hinv rfl]
      | some h => simp
    | some child =>
      simp only [matchSpecAux, walkedNodes_cons, hlc, finalNode_cons,
        List.length_cons, deepestHandler]
      cases hch : child.handler with
      | some h =>
        dsimp only
        rw [ih child (i + 1) (some h) (i + 1) (by intro hc; cases hc)]
        simp only [matchSpecAux, finalNode_cons]
        cases hdeep : deepestHandler (walkedNodes child rest) (i + 1) with
        | none => simp [hdeep, Nat.succ_inj]
        | some r => obtain ⟨h', c'⟩ := r; simp [hdeep, Nat.succ_inj]
      | none =>
        dsimp only
        rw [ih child (i + 1) lastH lastC hinv]
        simp only [matchSpecAux, finalNode_cons]
        cases hdeep : deepestHandler (walkedNodes child rest) (i + 1) with
        | none => simp [hdeep, Nat.succ_inj]
        | some r => obtain ⟨h', c'⟩ := r; simp [hdeep, Nat.succ_inj]

/-- C2 (confirmed): for every trie and key buffer, `Router.match` returns the
handler of the deepest handler-bearing node on the successfully walked path
with the number of keys consumed to reach it (no handler and consumed 0 when
there is none); when some key has no child the walk stops and
`hasLongerPrefix` is false; when the walk consumes the entire buffer,
`hasLongerPrefix` is true iff the final node has at least one child — all of
which is the content of `matchSpec`. -/
theorem router_match_eq_matchSpec (root : TrieNode) (ks : List Key) :
    matchFn root ks = matchSpec root ks := by
  have h := matchLoop_eq_spec ks root 0 none 0 (fun _ => rfl)
  rw [matchFn, h]
  rfl

/-! ### Walk lemmas for the dispatch proofs -/

theorem walkTrie_append (a : List Key) :
    ∀ (b : List Key) (t : TrieNode),
    walkTrie t (a ++ b) = (walkTrie t a).bind fun m => walkTrie m b := by
  induction a with
  | nil => intro b t; simp [walkTrie]
  | cons k rest ih =>
    intro b t
    rw [List.cons_append, walkTrie, walkTrie]
    cases hlc : lookupChild t.children k with
    | none => simp
    | some child => simp [ih b child]

theorem lookupChild_isEmpty_false {cs : List (Key × TrieNode)} {k : Key} {x : TrieNode}
    (h : lookupChild cs k = some x) : cs.isEmpty = false := by
  cases cs with
  | nil => simp [lookupChild] at h
  | cons p rest => simp

theorem walkedNodes_finalNode_of_walk :
    ∀ (bs : List Key) (t m : TrieNode), walkTrie t bs = some m →
    finalNode t (walkedNodes t bs) = m := by
  intro bs
  induction bs with
  | nil => intro t m hw; simp [walkTrie] at hw; simp [walkedNodes, finalNode, hw]
  | cons k rest ih =>
    intro t m hw
    rw [walkTrie] at hw
    cases hlc : lookupChild t.children k with
    | none => rw [hlc] at hw; cases hw
    | some child =>
      rw [hlc] at hw
      rw [walkedNodes_cons, hlc, finalNode_cons]
      exact ih child m hw

theorem walkedNodes_length_of_walk :
    ∀ (bs : List Key) (t m : TrieNode), walkTrie t bs = some m →
    (walkedNodes t bs).length = bs.length := by
  intro bs
  induction bs with
  | nil => intro t m _; simp [walkedNodes]
  | cons k rest ih =>
    intro t m hw
    rw [walkTrie] at hw
    cases hlc : lookupChild t.children k with
    | none => rw [hlc] at hw; cases hw
    | some child =>
      rw [hlc] at hw
      rw [walkedNodes_cons, hlc]
      simp [ih child m hw]

theorem deepestHandler_last :
    ∀ (ws : List TrieNode) (a : TrieNode) (i hh : Nat), ws ≠ [] →
    ((ws.getLastD a).handler = some hh) →
    deepestHandler ws i = some (hh, i + ws.length) := by
  intro ws
  induction ws with
  | nil => intro a i hh hne; exact absurd rfl hne
  | cons b ws' ih =>
    intro a i hh _ hlast
    cases hws' : ws' with
    | nil =>
      subst hws'
      simp [List.getLastD] at hlast
      simp [deepestHandler, hlast]
    | cons c ws'' =>
      have hne' : ws' ≠ [] := by rw [hws']; simp
      rw [List.getLastD_cons] at hlast
      have hd := ih b (i + 1) hh hne' hlast
      subst hws'
      rw [deepestHandler, hd]
      simp [List.length_cons]
      omega

/-- If the whole buffer walks successfully to `m`, `match`'s `hasLongerPrefix`
is exactly "`m` has children". -/
theorem matchFn_partial_of_walk {t : TrieNode} {bs : List Key} {m : TrieNode}
    (hw : walkTrie t bs = some m) :
    (matchFn t bs).2.2 = !m.children.isEmpty := by
  rw [router_match_eq_matchSpec]
  have hlen := walkedNodes_length_of_walk bs t m hw
  have hfin := walkedNodes_finalNode_of_walk bs t m hw
  rw [matchSpec]
  simp only [hlen, hfin]
  cases hdeep : deepestHandler (walkedNodes t bs) 0 with
  | none => simp
  | some r => obtain ⟨h', c'⟩ := r; simp

/-- If the whole nonempty buffer walks successfully to a node carrying a
handler, `match` returns that handler with the full buffer consumed. -/
theorem matchFn_fire_of_walk {t : TrieNode} {bs : List Key} {m : TrieNode}
    {hh : Nat} (hbs : bs ≠ []) (hw : walkTrie t bs = some m)
    (hhd : m.handler = some hh) :
    matchFn t bs = (some hh, bs.length, !m.children.isEmpty) := by
  rw [router_match_eq_matchSpec]
  have hlen := walkedNodes_length_of_walk bs t m hw
  have hfin := walkedNodes_finalNode_of_walk bs t m hw
  have hne : walkedNodes t bs ≠ [] := by
    intro hempty
    rw [hempty] at hlen
    exact hbs (List.eq_nil_of_length_eq_zero hlen.symm)
  have hdeep := deepestHandler_last (walkedNodes t bs) t 0 hh hne
    (by
      have hgl : (walkedNodes t bs).getLastD t = m := hfin
      rw [hgl]; exact hhd)
  rw [matchSpec]
  simp only [hdeep]
  simp [hlen, hfin]

/-! ### Dispatch step lemmas -/

/-- A dispatched key that completes a pattern with no longer prefix possible
fires immediately: the matched keys are the whole buffer, the count is the
parsed accumulator, and the whole pending state is cleared. -/
theorem dispatch_step_fire (t : RouterS) (pre : List Key) (k : Key) (cb : List Char)
    (pnd : Option Nat) (pks : List Key) (nd : TrieNode) (hh : Nat)
    (hcount : ¬(isCountDigit cb k = true ∧ pre = []))
    (hw : walkTrie t.root (pre ++ [k]) = some nd)
    (hhd : nd.handler = some hh)
    (hch : nd.children = []) :
    dispatch ⟨[t], pre, cb, pnd, pks⟩ k =
      (⟨[t], [], [], none, []⟩, true, [⟨hh, pre ++ [k], parseCount cb⟩]) := by
  have hmf := matchFn_fire_of_walk (by simp) hw hhd
  rw [hch] at hmf
  simp only [List.isEmpty_nil, Bool.not_true] at hmf
  simp only [dispatch]
  have hgl : ([t] : List RouterS).getLast? = some t := rfl
  simp only [hgl]
  rw [if_neg hcount]
  simp only [hmf]
  simp [List.take_length, List.drop_length]

/-- A dispatched key that extends the walk to a node that still has children
is accepted and buffered (either arming the pending snapshot or plain
buffering); no handler fires and the count accumulator is untouched. -/
theorem dispatch_step_mid (t : RouterS) (pre : List Key) (k : Key) (cb : List Char)
    (pnd : Option Nat) (pks : List Key) (next : TrieNode)
    (hcount : ¬(isCountDigit cb k = true ∧ pre = []))
    (hw : walkTrie t.root (pre ++ [k]) = some next)
    (hch : next.children.isEmpty = false) :
    ∃ (pnd' : Option Nat) (pks' : List Key),
    dispatch ⟨[t], pre, cb, pnd, pks⟩ k =
      (⟨[t], pre ++ [k], cb, pnd', pks'⟩, true, []) := by
  have hpart := matchFn_partial_of_walk hw
  rw [hch] at hpart
  simp only [Bool.not_false] at hpart
  simp only [dispatch]
  have hgl : ([t] : List RouterS).getLast? = some t := rfl
  simp only [hgl]
  rw [if_neg hcount]
  rcases hmf : matchFn t.root (pre ++ [k]) with ⟨H, C, P⟩
  have hP : P = true := by rw [hmf] at hpart; exact hpart
  subst hP
  simp only [hmf]
  cases H with
  | some h' =>
    refine ⟨some h', (pre ++ [k]).take C, ?_⟩
    simp
  | none =>
    refine ⟨none, [], ?_⟩
    simp

theorem runKeys_cons (s : InputState) (k : Key) (rest : List Key) :
    runKeys s (k :: rest) =
      ((runKeys (dispatch s k).1 rest).1,
        ((dispatch s k).2.1, (dispatch s k).2.2) :: (runKeys (dispatch s k).1 rest).2) := rfl

/-- Running the keys of a fully registered pattern whose final node has no
children: every dispatch is handled, nothing fires until the last key, and the
last key fires the pattern's handler with the accumulated count, clearing all
state. -/
theorem runKeys_fire (t : RouterS) (cb : List Char) :
    ∀ (rest : List Key) (k : Key) (pre : List Key) (cur nd : TrieNode) (hh : Nat)
      (pnd : Option Nat) (pks : List Key),
    walkTrie t.root pre = some cur →
    walkTrie cur (k :: rest) = some nd →
    nd.handler = some hh →
    nd.children = [] →
    ¬(isCountDigit cb k = true ∧ pre = []) →
    runKeys ⟨[t], pre, cb, pnd, pks⟩ (k :: rest) =
      (⟨[t], [], [], none, []⟩,
        List.replicate rest.length (true, []) ++
          [(true, [⟨hh, pre ++ k :: rest, parseCount cb⟩])]) := by
  intro rest
  induction rest with
  | nil =>
    intro k pre cur nd hh pnd pks hwpre hwsuf hhd hch hcount
    have hwapp : walkTrie t.root (pre ++ [k]) = some nd := by
      rw [walkTrie_append, hwpre]
      simpa using hwsuf
    rw [runKeys_cons, dispatch_step_fire t pre k cb pnd pks nd hh hcount hwapp hhd hch]
    simp [runKeys]
  | cons k2 rest2 ih =>
    intro k pre cur nd hh pnd pks hwpre hwsuf hhd hch hcount
    rw [walkTrie_cons] at hwsuf
    cases hlc : lookupChild cur.children k with
    | none => rw [hlc] at hwsuf; cases hwsuf
    | some next =>
      rw [hlc] at hwsuf
      have hwsuf' : walkTrie next (k2 :: rest2) = some nd := hwsuf
      have hwapp : walkTrie t.root (pre ++ [k]) = some next := by
        rw [walkTrie_append, hwpre]
        simp [walkTrie_cons, walkTrie_nil, hlc]
      have hch2 : next.children.isEmpty = false := by
        rw [walkTrie_cons] at hwsuf'
        cases hlc2 : lookupChild next.children k2 with
        | none => rw [hlc2] at hwsuf'; cases hwsuf'
        | some x => exact lookupChild_isEmpty_false hlc2
      obtain ⟨pnd', pks', hstep⟩ :=
        dispatch_step_mid t pre k cb pnd pks next hcount hwapp hch2
      rw [runKeys_cons, hstep]
      dsimp only
      rw [ih k2 (pre ++ [k]) next nd hh pnd' pks' hwapp hwsuf' hhd hch (by simp)]
      simp [List.replicate_succ]

/-! ### C1: exact pattern input fires the handler once, synchronously -/

/-- C1 counterexample: the pattern `"5"` compiles to the single unmodified key
`'5'`, is registered (handler 3) with nothing extending it, yet dispatching
that one key performs no handler invocation at all — the key is consumed as a
count digit (the dispatch still returns handled, with an empty event list),
refuting "invokes p's handler exactly once ... with Count 1". -/
theorem count_digit_pattern_never_fires :
    (runKeys (newInput (some (registerPattern newRouter ['5'] 3))) [⟨'5', 0, 0⟩]).2 =
      [(true, [])] := by decide

/-- C1 (amended): for a pattern compiling to the non-empty key sequence
`k :: ks` whose trie node carries a handler and has no children (no strict
extension of the pattern was ever registered — removal does not prune
children), and whose first key is not an unmodified digit `1`–`9` (which would
be consumed as a count prefix), dispatching the keys in order through a fresh
`Input` returns handled for every key and invokes the handler exactly once,
synchronously inside the final `Dispatch` call, with `Count` 1 and `Keys`
equal to the dispatched keys. -/
theorem dispatch_exact_match_fires_once (t : RouterS) (k : Key) (ks : List Key)
    (nd : TrieNode) (hh : Nat)
    (hw : walkTrie t.root (k :: ks) = some nd)
    (hhd : nd.handler = some hh)
    (hch : nd.children = [])
    (hdig : isCountDigit [] k = false) :
    runKeys (newInput (some t)) (k :: ks) =
      (⟨[t], [], [], none, []⟩,
        List.replicate ks.length (true, []) ++ [(true, [⟨hh, k :: ks, 1⟩])]) := by
  have h := runKeys_fire t [] ks k [] t.root nd hh none []
    rfl hw hhd hch (by simp [hdig])
  simpa using h

theorem dispatch_exact_match_fires_once_witness :
    runKeys (newInput (some (registerPattern newRouter ['a', 'b'] 7)))
        [⟨'a', 0, 0⟩, ⟨'b', 0, 0⟩] =
      (⟨[registerPattern newRouter ['a', 'b'] 7], [], [], none, []⟩,
        [(true, []), (true, [⟨7, [⟨'a', 0, 0⟩, ⟨'b', 0, 0⟩], 1⟩])]) :=
  dispatch_exact_match_fires_once (registerPattern newRouter ['a', 'b'] 7)
    ⟨'a', 0, 0⟩ [⟨'b', 0, 0⟩] (.node [] (some 7)) 7 rfl rfl rfl rfl

/-! ### C5: numeric count prefixes -/

/-- An unmodified literal key, as produced for a dispatched digit. -/
def digitKey (c : Char) : Key := ⟨c, 0, 0⟩

/-- The dispatched digit characters `ds` are accepted as count digits when
the accumulator currently holds `cb`: the first accumulated digit must be
1–9, later ones 0–9. -/
def digitsOkB : List Char → List Char → Bool
  | _, [] => true
  | cb, d :: ds => isCountDigit cb (digitKey d) && digitsOkB (cb ++ [d]) ds

/-- The decimal value of a digit string (by byte values). -/
def decVal (ds : List Nat) : Nat := ds.foldl (fun a c => a * 10 + (c - 48)) 0

@[simp] theorem digitKey_rune (c : Char) : (digitKey c).rune = c := rfl

theorem dispatch_step_digit (t : RouterS) (cb : List Char) (k : Key)
    (hdig : isCountDigit cb k = true) :
    dispatch ⟨[t], [], cb, none, []⟩ k = (⟨[t], [], cb ++ [k.rune], none, []⟩, true, []) := by
  simp only [dispatch]
  have hgl : ([t] : List RouterS).getLast? = some t := rfl
  simp only [hgl]
  rw [if_pos ⟨hdig, trivial⟩]

/-- Dispatching accepted count digits only grows the accumulator: every call
returns handled, nothing fires, the buffer stays empty. -/
theorem runKeys_digits (t : RouterS) :
    ∀ (ds cb : List Char), digitsOkB cb ds = true →
    runKeys ⟨[t], [], cb, none, []⟩ (ds.map digitKey) =
      (⟨[t], [], cb ++ ds, none, []⟩, List.replicate ds.length (true, [])) := by
  intro ds
  induction ds with
  | nil => intro cb _; simp [runKeys]
  | cons d rest ih =>
    intro cb hok
    rw [digitsOkB, Bool.and_eq_true] at hok
    rw [List.map_cons, runKeys_cons, dispatch_step_digit t cb (digitKey d) hok.1]
    simp only [digitKey_rune]
    rw [ih (cb ++ [d]) hok.2]
    simp [List.replicate_succ, List.append_assoc]

theorem runKeys_append (a : List Key) :
    ∀ (b : List Key) (s : InputState),
    runKeys s (a ++ b) =
      ((runKeys (runKeys s a).1 b).1,
        (runKeys s a).2 ++ (runKeys (runKeys s a).1 b).2) := by
  induction a with
  | nil => intro b s; simp [runKeys]
  | cons k rest ih =>
    intro b s
    rw [List.cons_append, runKeys_cons, runKeys_cons, ih]
    simp

theorem decVal_step_ge_one :
    ∀ (t : List Nat) (a : Nat), 1 ≤ a → 1 ≤ t.foldl (fun a c => a * 10 + (c - 48)) a := by
  intro t
  induction t with
  | nil => intro a ha; simpa using ha
  | cons c rest ih =>
    intro a ha
    rw [List.foldl_cons]
    exact ih _ (by omega)

theorem isCountDigit_bounds {cb : List Char} {c : Char}
    (h : isCountDigit cb (digitKey c) = true) : 48 ≤ c.toNat ∧ c.toNat ≤ 57 := by
  rw [isCountDigit] at h
  rw [if_neg (by simp [digitKey])] at h
  by_cases hcb : cb.isEmpty
  · rw [if_pos hcb] at h
    have hb := of_decide_eq_true h
    simp only [digitKey] at hb
    omega
  · rw [if_neg hcb] at h
    have hb := of_decide_eq_true h
    simp only [digitKey] at hb
    omega

theorem isCountDigit_first_bounds {c : Char}
    (h : isCountDigit [] (digitKey c) = true) : 49 ≤ c.toNat ∧ c.toNat ≤ 57 := by
  rw [isCountDigit] at h
  rw [if_neg (by simp [digitKey])] at h
  rw [if_pos (by simp)] at h
  have hb := of_decide_eq_true h
  simp only [digitKey] at hb
  exact hb

theorem digitsOkB_all_digits :
    ∀ (ds cb : List Char), digitsOkB cb ds = true →
    ∀ c ∈ ds, 48 ≤ c.toNat ∧ c.toNat ≤ 57 := by
  intro ds
  induction ds with
  | nil => intro cb _ c hc; cases hc
  | cons e es ih =>
    intro cb hok c hc
    rw [digitsOkB, Bool.and_eq_true] at hok
    rw [List.mem_cons] at hc
    rcases hc with hc | hc
    · subst hc
      exact isCountDigit_bounds hok.1
    · exact ih (cb ++ [e]) hok.2 c hc

/-- `parseCount` on a digit accumulator whose first digit is 1–9 and whose
value fits a signed 64-bit integer is the decimal value. -/
theorem parseCount_digits {d0 : Char} {ds : List Char}
    (hd0 : 49 ≤ d0.toNat ∧ d0.toNat ≤ 57)
    (hds : ∀ c ∈ ds, 48 ≤ c.toNat ∧ c.toNat ≤ 57)
    (hlt : decVal ((d0 :: ds).map Char.toNat) < 2 ^ 63) :
    parseCount (d0 :: ds) = decVal ((d0 :: ds).map Char.toNat) := by
  have hne : (d0 :: ds : List Char) ≠ [] := by simp
  rw [parseCount, if_neg hne]
  have hatoi : goAtoi ((d0 :: ds).map Char.toNat) =
      some (decVal ((d0 :: ds).map Char.toNat) : Int) := by
    rw [goAtoi]
    have hhead : ((d0 :: ds).map Char.toNat).head? = some d0.toNat := by simp
    have hn45 : ¬(((d0 :: ds).map Char.toNat).head? = some 45 ∨
        ((d0 :: ds).map Char.toNat).head? = some 43) := by
      rw [hhead]
      simp only [Option.some_inj]
      omega
    rw [if_neg hn45]
    have hall : (((d0 :: ds).map Char.toNat).all fun c => decide (48 ≤ c ∧ c ≤ 57)) = true := by
      rw [List.all_eq_true]
      intro c hc
      rw [List.mem_map] at hc
      obtain ⟨ch, hch, hceq⟩ := hc
      subst hceq
      rw [List.mem_cons] at hch
      rcases hch with hch | hch
      · subst hch
        simp only [decide_eq_true_eq]
        omega
      · have hb := hds _ hch
        simp only [decide_eq_true_eq]
        omega
    rw [if_pos ⟨by simp, hall⟩]
    have hnegf : (decide (((d0 :: ds).map Char.toNat).head? = some 45) : Bool) = false := by
      rw [hhead]
      simp only [decide_eq_false_iff_not, Option.some_inj]
      omega
    rw [hnegf]
    simp only [Bool.false_eq_true, if_false]
    have hlt2 : List.foldl (fun a c => a * 10 + (c - 48)) 0 ((d0 :: ds).map Char.toNat)
        < 2 ^ 63 := hlt
    rw [if_pos hlt2]
    rfl
  rw [hatoi]
  have hge : 1 ≤ decVal ((d0 :: ds).map Char.toNat) := by
    rw [decVal, List.map_cons, List.foldl_cons]
    exact decVal_step_ge_one _ _ (by omega)
  dsimp only
  rw [if_neg (not_lt.mpr (by exact_mod_cast hge))]
  simp

/-- C5 counterexample: with the pattern `"0"` registered (handler 7),
dispatching the count digit `'5'` and then `'0'` never fires the handler —
the `'0'` is absorbed into the count accumulator because digits have already
accumulated, refuting "dispatching a leading digit ... and then the keys of a
registered pattern fires that pattern's handler". -/
theorem count_then_zero_pattern_never_fires :
    (runKeys (newInput (some (registerPattern newRouter ['0'] 7)))
        [⟨'5', 0, 0⟩, ⟨'0', 0, 0⟩]).2 = [(true, []), (true, [])] := by decide

/-- C5 (amended): a leading digit 1–9 followed by digits 0–9 and then the keys
of a registered pattern — whose node has no children and whose first key is
not itself a bare digit key — fires the handler with `Count` equal to the
decimal value of the digits, provided that value fits in a signed 64-bit
integer (`Atoi` fails on overflow and the count falls back to 1); and a `'0'`
dispatched with no accumulated digits is a literal key: with `"0"` registered,
dispatching `'0'` alone fires its handler with `Count` 1. -/
theorem count_prefix_fires_with_count :
    (∀ (t : RouterS) (d0 : Char) (ds : List Char) (k : Key) (ks : List Key)
        (nd : TrieNode) (hh : Nat),
      digitsOkB [] (d0 :: ds) = true →
      walkTrie t.root (k :: ks) = some nd →
      nd.handler = some hh →
      nd.children = [] →
      isCountDigit (d0 :: ds) k = false →
      decVal ((d0 :: ds).map Char.toNat) < 2 ^ 63 →
      runKeys (newInput (some t)) ((d0 :: ds).map digitKey ++ (k :: ks)) =
        (⟨[t], [], [], none, []⟩,
          List.replicate (d0 :: ds).length (true, []) ++
            (List.replicate ks.length (true, []) ++
              [(true, [⟨hh, k :: ks, decVal ((d0 :: ds).map Char.toNat)⟩])]))) ∧
    (∀ (t : RouterS) (nd : TrieNode) (hh : Nat),
      walkTrie t.root [⟨'0', 0, 0⟩] = some nd →
      nd.handler = some hh →
      nd.children = [] →
      runKeys (newInput (some t)) [⟨'0', 0, 0⟩] =
        (⟨[t], [], [], none, []⟩, [(true, [⟨hh, [⟨'0', 0, 0⟩], 1⟩])])) := by
  constructor
  · intro t d0 ds k ks nd hh hok hw hhd hch hdig hlt
    have hdigits := runKeys_digits t (d0 :: ds) [] hok
    have hfire := runKeys_fire t (d0 :: ds) ks k [] t.root nd hh none []
      rfl hw hhd hch (by simp [hdig])
    have hok2 := hok
    rw [digitsOkB, Bool.and_eq_true] at hok2
    have hd0 : 49 ≤ d0.toNat ∧ d0.toNat ≤ 57 := isCountDigit_first_bounds hok2.1
    have hds : ∀ c ∈ ds, 48 ≤ c.toNat ∧ c.toNat ≤ 57 :=
      digitsOkB_all_digits ds ([] ++ [d0]) hok2.2
    rw [runKeys_append, show newInput (some t) = ⟨[t], [], [], none, []⟩ from rfl, hdigits]
    dsimp only
    rw [show ([] : List Char) ++ (d0 :: ds) = d0 :: ds from rfl, hfire]
    rw [parseCount_digits hd0 hds hlt]
    simp
  · intro t nd hh hw hhd hch
    have h := runKeys_fire t [] [] ⟨'0', 0, 0⟩ [] t.root nd hh none []
      rfl hw hhd hch (by simp [isCountDigit])
    simpa using h

theorem count_prefix_fires_with_count_witness :
    runKeys (newInput (some (registerPattern newRouter ['j'] 3)))
        [⟨'2', 0, 0⟩, ⟨'5', 0, 0⟩, ⟨'j', 0, 0⟩] =
      (⟨[registerPattern newRouter ['j'] 3], [], [], none, []⟩,
        [(true, []), (true, []), (true, [⟨3, [⟨'j', 0, 0⟩], 25⟩])]) :=
  count_prefix_fires_with_count.1 (registerPattern newRouter ['j'] 3) '2' ['5']
    ⟨'j', 0, 0⟩ [] (.node [] (some 3)) 3 (by decide) rfl rfl rfl (by decide) (by decide)

/-! ### C6: an unrelated key after an ambiguous prefix abandons the sequence -/

/-- C6 (confirmed): with `"g"` (handler 1) and `"gg"` (handler 2) registered,
dispatching `g` then the unrelated `x` fires neither handler, the dispatch of
`x` returns unhandled, and the key buffer and count accumulator are both
cleared (as is the pending snapshot). -/
theorem g_then_unrelated_abandons :
    runKeys
        (newInput (some (registerPattern (registerPattern newRouter ['g'] 1) ['g', 'g'] 2)))
        [⟨'g', 0, 0⟩, ⟨'x', 0, 0⟩] =
      (⟨[registerPattern (registerPattern newRouter ['g'] 1) ['g', 'g'] 2],
          [], [], none, []⟩,
        [(true, []), (false, [])]) := rfl

/-! ### C10: dispatch on an empty router stack -/

/-- C10 (confirmed): on an `Input` constructed by `NewInput(nil)` the router
stack is empty, so `Dispatch` returns unhandled for every key, leaves the
buffer, count accumulator and pending state untouched, and invokes no
handler. -/
theorem dispatch_empty_stack_unhandled (k : Key) :
    dispatch (newInput none) k = (newInput none, false, []) := rfl

/-! ### C4: the escape-sequence flag -/

/-- Whether a history operation registers a pattern containing an
escape-generating key. -/
def regEsc (op : ROp) : Bool :=
  match op with
  | .reg p _ => (ParsePattern p).any generatesEscapeSequence
  | .rem _ => false

theorem applyOp_hasEsc (r : RouterS) (op : ROp) :
    (applyOp r op).hasEscapeSequences = (r.hasEscapeSequences || regEsc op) := by
  cases op with
  | reg p h =>
    simp only [applyOp, registerPattern, regEsc]
    by_cases hk : ParsePattern p = []
    · rw [if_pos hk, hk]
      simp
    · rw [if_neg hk]
  | rem p =>
    simp only [applyOp, removePattern, regEsc]
    by_cases hk : ParsePattern p = []
    · rw [if_pos hk]
      simp
    · rw [if_neg hk]
      simp

theorem applyOps_hasEsc :
    ∀ (ops : List ROp) (r : RouterS),
    (applyOps r ops).hasEscapeSequences = (r.hasEscapeSequences || ops.any regEsc) := by
  intro ops
  induction ops with
  | nil => intro r; simp [applyOps]
  | cons op rest ih =>
    intro r
    rw [applyOps, List.foldl_cons]
    rw [show List.foldl applyOp (applyOp r op) rest = applyOps (applyOp r op) rest from rfl]
    rw [ih (applyOp r op), applyOp_hasEsc]
    simp [Bool.or_assoc]

/-- C4 counterexample: register `"<Up>"` and then remove it.  The set of
currently registered patterns is empty — no currently registered pattern
contains an escape-generating key — yet `HasEscapeSequences()` still returns
true, refuting the claimed "if and only if". -/
theorem hasEscapeSequences_stale_after_removal :
    (applyOps newRouter
        [ROp.reg ['<', 'U', 'p', '>'] 1, ROp.rem ['<', 'U', 'p', '>']]).hasEscapeSequences
      = true ∧
    regSetOf [ROp.reg ['<', 'U', 'p', '>'] 1, ROp.rem ['<', 'U', 'p', '>']] = [] := by
  decide

/-- C4 (amended): after any sequence of pattern registrations and removals (a
rebind is remove-then-reregister in the source), `HasEscapeSequences()`
returns true if and only if some pattern registered at some point in the
history — whether or not it is still registered — contained a key read as a
multi-byte escape sequence (arrow, Home, End, PageUp, PageDown, Insert,
Delete, F1–F12, or any key with the Alt modifier): the flag is set during
registration and never cleared by removal. -/
theorem hasEscapeSequences_eq_history (ops : List ROp) :
    (applyOps newRouter ops).hasEscapeSequences = ops.any regEsc := by
  rw [applyOps_hasEsc]
  rfl

/-! ### C7: single-byte decoding table -/

set_option maxRecDepth 100000

/-- C7 (confirmed): every byte 1–26 other than 8, 9, 10, 13 decodes to Ctrl
plus the corresponding lowercase letter (`'a' + b - 1 = Char.ofNat (96 + b)`);
byte 0 to Ctrl+Space; bytes 8 and 127 to Backspace; 9 to Tab; 10 and 13 to
Enter; 32 to Space. -/
theorem parseSingleByte_table :
    (∀ b : Fin 256, 1 ≤ b.val → b.val ≤ 26 → b.val ≠ 8 → b.val ≠ 9 → b.val ≠ 10 →
      b.val ≠ 13 → parseSingleByte b.val = ⟨Char.ofNat (96 + b.val), modCtrl, 0⟩) ∧
    parseSingleByte 0 = ⟨' ', modCtrl, 0⟩ ∧
    parseSingleByte 8 = keyOfSpecial specialBackspace ∧
    parseSingleByte 127 = keyOfSpecial specialBackspace ∧
    parseSingleByte 9 = keyOfSpecial specialTab ∧
    parseSingleByte 10 = keyOfSpecial specialEnter ∧
    parseSingleByte 13 = keyOfSpecial specialEnter ∧
    parseSingleByte 32 = keyOfSpecial specialSpace := by
  refine ⟨by decide, by decide, by decide, by decide, by decide, by decide, by decide,
    by decide⟩

theorem parseSingleByte_table_witness :
    parseSingleByte 5 = ⟨Char.ofNat 101, modCtrl, 0⟩ :=
  parseSingleByte_table.1 ⟨5, by decide⟩ (by decide) (by decide) (by decide) (by decide)
    (by decide) (by decide)

/-! ### C8: CSI decoding round trip -/

/-- C8 (confirmed): feeding the exact bytes `ESC [ 1 ; 5 A` yields the single
key Ctrl+Up; feeding `ESC` with no further byte arriving within the timeout
(modelled as stream exhaustion) yields Escape; and the CSI modifier parameter
digit `'1' + (shift + 2*alt + 4*ctrl)` — the convention
`M = 1 + shift(1) + alt(2) + ctrl(4)` — decodes to exactly that modifier
set. -/
theorem readKey_csi_ctrl_up_and_escape :
    readKeyFromBytes [27, 91, 49, 59, 53, 65] = some (⟨noRune, modCtrl, specialUp⟩, []) ∧
    readKeyFromBytes [27] = some (⟨noRune, 0, specialEscape⟩, []) ∧
    (∀ s a c : Bool,
      parseModifier
          (49 + ((if s then 1 else 0) + (if a then 2 else 0) + (if c then 4 else 0))) =
        ((if s then modShift else 0) |||
          (if a then modAlt else 0) ||| (if c then modCtrl else 0))) := by
  decide

/-! ### C3: renderer/compiler round trip -/

/-- C3 counterexample: the key Ctrl+`'-'` renders as `"<C-->"`, but compiling
that text loses the rune: `strings.Split` on `"-"` turns the rune part into
empty fields, so the result is Ctrl with no rune — not the original key. -/
theorem dash_chord_roundTrip_fails :
    ParsePattern (keyString ⟨'-', 2, 0⟩) ≠ [⟨'-', 2, 0⟩] := by decide

theorem parsePattern_singleton (r : Char) : ParsePattern [r] = [⟨r, 0, 0⟩] := by
  by_cases h : r = '<'
  · subst h
    decide
  · have h1 : ParsePattern [r] = parsePatternGo (0 + 1) [r] := rfl
    rw [h1, parsePatternGo, if_neg h]
    rfl

theorem keyString_roundTrip_special :
    ∀ m : Fin 15, ∀ sp : Fin 28, m.val &&& 14 = m.val → 1 ≤ sp.val →
    ParsePattern (keyString ⟨noRune, m.val, sp.val⟩) = [⟨noRune, m.val, sp.val⟩] := by
  decide

theorem keyString_roundTrip_modsOnly :
    ∀ m : Fin 15, m.val &&& 14 = m.val → m.val ≠ 0 →
    ParsePattern (keyString ⟨noRune, m.val, 0⟩) = [⟨noRune, m.val, 0⟩] := by
  decide

theorem keyString_roundTrip_chord :
    ∀ m : Fin 15, ∀ r : Fin 128, m.val &&& 14 = m.val → m.val ≠ 0 → r.val ≠ 0 →
    r.val ≠ 45 → r.val ≠ 62 →
    ParsePattern (keyString ⟨Char.ofNat r.val, m.val, 0⟩) =
      [⟨Char.ofNat r.val, m.val, 0⟩] := by
  decide

theorem char_toNat_injOn {r : Char} {n : Nat} (h : r.toNat = n) : r = Char.ofNat n := by
  rw [← h, Char.ofNat_toNat]

/-- The keys for which the textual rendering round-trips through the pattern
compiler: a plain unmodified rune; or a defined special key (rune zero) with
any Ctrl/Alt/Shift modifier set; or a Ctrl/Alt/Shift-modified rune that is
either zero or an ASCII character other than `'-'` and `'>'`. -/
def rendererRoundTripDomain (k : Key) : Prop :=
  (k.mod = 0 ∧ k.special = 0 ∧ k.rune ≠ noRune) ∨
  (k.mod &&& 14 = k.mod ∧ 1 ≤ k.special ∧ k.special ≤ 27 ∧ k.rune = noRune) ∨
  (k.mod &&& 14 = k.mod ∧ k.mod ≠ 0 ∧ k.special = 0 ∧
    (k.rune = noRune ∨ (k.rune.toNat < 128 ∧ k.rune ≠ '-' ∧ k.rune ≠ '>')))

/-- C3 (amended): for every `Key` in `rendererRoundTripDomain` — the modifier
bits are the defined Ctrl/Alt/Shift bits, the special value is a defined
enumeration member with rune zero (or zero with a rune present), and any
modified rune is ASCII and not `'-'` or `'>'` — applying `ParsePattern` to
`Key.String()` yields exactly the one-element sequence of the original key. -/
theorem parsePattern_keyString_roundTrip (k : Key)
    (hd : rendererRoundTripDomain k) :
    ParsePattern (keyString k) = [k] := by
  obtain ⟨r, m, sp⟩ := k
  rcases hd with ⟨hm, hsp, hr⟩ | ⟨hm, hsp1, hsp27, hr⟩ | ⟨hm, hmne, hsp, hr⟩
  · dsimp only at hm hsp hr
    subst hm
    subst hsp
    have hks : keyString ⟨r, 0, 0⟩ = [r] := by
      rw [keyString, if_pos ⟨rfl, rfl, hr⟩]
    rw [hks]
    exact parsePattern_singleton r
  · dsimp only at hm hsp1 hsp27 hr
    subst hr
    have hm14 : m ≤ 14 := hm ▸ Nat.and_le_right
    exact keyString_roundTrip_special ⟨m, by omega⟩ ⟨sp, by omega⟩ hm hsp1
  · dsimp only at hm hmne hsp hr
    subst hsp
    have hm14 : m ≤ 14 := hm ▸ Nat.and_le_right
    by_cases hrz : r = noRune
    · subst hrz
      exact keyString_roundTrip_modsOnly ⟨m, by omega⟩ hm hmne
    · rcases hr with hr | ⟨hlt, hdash, hgt⟩
      · exact absurd hr hrz
      · have hn0 : r.toNat ≠ 0 := fun hc => hrz (char_toNat_injOn hc)
        have hn45 : r.toNat ≠ 45 := fun hc => hdash (char_toNat_injOn hc)
        have hn62 : r.toNat ≠ 62 := fun hc => hgt (char_toNat_injOn hc)
        have h := keyString_roundTrip_chord ⟨m, by omega⟩ ⟨r.toNat, hlt⟩ hm hmne
          hn0 hn45 hn62
        rw [Char.ofNat_toNat] at h
        exact h

theorem parsePattern_keyString_roundTrip_witness :
    rendererRoundTripDomain ⟨noRune, 2, 3⟩ ∧
    ParsePattern (keyString ⟨noRune, 2, 3⟩) = [⟨noRune, 2, 3⟩] :=
  ⟨Or.inr (Or.inl ⟨rfl, by decide, by decide, rfl⟩),
    parsePattern_keyString_roundTrip ⟨noRune, 2, 3⟩
      (Or.inr (Or.inl ⟨rfl, by decide, by decide, rfl⟩))⟩

end Riffkey
